import Mathlib

/-!
Shallow embedding of `src/main.rs` of the xlsx-translator repository.

The program reads a dictionary file of `key – value` override lines into a
`BTreeMap`, scans an xlsx grid cell by cell (writing verbatim/override cells
immediately and deduplicating the rest into an `untranslated` map plus a
`futures` vector), dispatches the futures in rate-limited bursts by popping
from the end of the vector, and collects translation outcomes from a channel,
writing each successful key's text to every registered cell location.

Machine integers (`u32` rows, `u16` columns, `usize` counters) are modelled as
`Nat`: the program never performs arithmetic on them beyond incrementing a
progress counter, so no overflow behaviour is observable.
-/

namespace XlsxTranslator

open List

/-- Model of a `calamine::DataType` cell value: the program only distinguishes
`DataType::String(s)` from every other variant (all of which just advance the
progress bar and are skipped). -/
inductive CellData
  | Str : String → CellData
  | Other : CellData
deriving DecidableEq

/-- A grid cell as produced by `range.cells()`: (row, column, data). -/
abbrev Cell := Nat × Nat × CellData

/-- A cell location `(row, column)` as stored in the `untranslated` map. -/
abbrev Loc := Nat × Nat

/-- Model of Rust `str::split_once(c)` on a list of characters: split at the
first occurrence of `c`, returning the parts before and after it. -/
def splitOnce (c : Char) : List Char → Option (List Char × List Char)
  | [] => none
  | x :: t =>
    if x = c then some ([], t)
    else (splitOnce c t).map (fun p => (x :: p.1, p.2))

/-- `str::split_once` lifted to `String`. -/
def splitOnceStr (c : Char) (s : String) : Option (String × String) :=
  (splitOnce c s.data).map (fun p => (String.mk p.1, String.mk p.2))

/-- Model of Rust `str::contains(pat)`: `pat` occurs as a contiguous substring
of the haystack. -/
def containsSub (hay need : List Char) : Bool :=
  match hay with
  | [] => need.isPrefixOf []
  | x :: t => need.isPrefixOf (x :: t) || containsSub t need

/-- `str::contains` lifted to `String`: `strContains s pat` holds when `pat`
is a substring of `s`. -/
def strContains (s pat : String) : Bool :=
  containsSub s.data pat.data

/-- Model of Rust `str::trim`: remove whitespace characters from both ends. -/
def strTrim (s : String) : String :=
  String.mk ((s.data.dropWhile Char.isWhitespace).reverse.dropWhile Char.isWhitespace).reverse

/-- Model of Rust `str::to_lowercase`: lowercase every character. -/
def strToLower (s : String) : String :=
  String.mk (s.data.map Char.toLower)

/-- The string order used by the program's `BTreeMap`s: the model of Rust's
`Ord` for `String` (bytewise comparison of UTF-8 strings coincides with
lexicographic comparison of the code-point sequences). -/
def strLt (s t : String) : Prop :=
  s.data < t.data

instance strLt.decidable (s t : String) : Decidable (strLt s t) :=
  inferInstanceAs (Decidable (s.data < t.data))

/-- Model of `BTreeMap<String, α>::insert`: an association list kept sorted by
key (strictly ascending, so keys are unique), which matches the map's
iteration order; inserting an existing key replaces its value. -/
def mapInsert {α : Type} : List (String × α) → String → α → List (String × α)
  | [], k, v => [(k, v)]
  | (k1, v1) :: t, k, v =>
    if strLt k k1 then (k, v) :: (k1, v1) :: t
    else if k = k1 then (k, v) :: t
    else (k1, v1) :: mapInsert t k v

/-- The override dictionary: `BTreeMap<String, String>` in the source. -/
abbrev Dict := List (String × String)

/-- The dedup registry: `BTreeMap<String, Vec<(u32, u16)>>` in the source. -/
abbrev UMap := List (String × List Loc)

/-- Model of `untranslated.get_mut(&key).push((row, column))`: append a
location to the vector stored at `key` (no change if the key is absent; the
program only calls this after a successful `get_mut`). -/
def umapPush : UMap → String → Loc → UMap
  | [], _, _ => []
  | (k1, l) :: t, k, x =>
    if k = k1 then (k1, l ++ [x]) :: t else (k1, l) :: umapPush t k x

/-- Model of the dictionary-loading loop of `main`: for each line (0-based
index `i`), `split_once('–')` must succeed, else the run aborts with
`Invalid entry at line #(i+1)`; on success `key.trim().to_lowercase()` maps to
`value.trim()`. -/
def parseDictAux (d : Dict) (i : Nat) : List String → Except String Dict
  | [] => .ok d
  | line :: rest =>
    match splitOnceStr '–' line with
    | none => .error ("Invalid entry at line #" ++ toString (i + 1))
    | some (k, v) => parseDictAux (mapInsert d (strToLower (strTrim k)) (strTrim v)) (i + 1) rest

/-- The dictionary parsing phase of `main`, over the file's lines. -/
def parseDictionary (lines : List String) : Except String Dict :=
  parseDictAux [] 0 lines

/-- Model of the `translations` accumulator of the scan loop: iterate the
dictionary in (sorted) order and append `"k – v\n"` for every entry whose key
is contained in the cell's normalized key. -/
def buildTranslations (dict : Dict) (key : String) : String :=
  dict.foldl
    (fun acc kv =>
      if strContains key kv.1 then acc ++ kv.1 ++ " – " ++ kv.2 ++ "\n" else acc)
    ""

/-- The override entries used as hints for `key`: those whose key is a
substring of `key`, in dictionary (ascending key) order. -/
def hintsList (dict : Dict) (key : String) : List (String × String) :=
  dict.filter (fun kv => strContains key kv.1)

/-- The prompt built for a new untranslated key (the `prompt` string of the
scan loop): an optional hint section followed by the translation directive
around the trimmed original-case cell text `value`. -/
def mkPrompt (dict : Dict) (key value : String) : String :=
  let translations := buildTranslations dict key
  (if translations = "" then ""
   else "Considering the following translations:\n" ++ translations ++ "\n")
    ++ "Translate this into Romanian:\n" ++ value ++ "\n\nRomanian:\n"

/-- State of the sequential scan phase of `main`: writes already made to the
destination worksheet, the dedup registry, the vector of pending futures
(key and prompt, in push order), and the progress-bar count. -/
structure ScanState where
  writes : List (Nat × Nat × String)
  untranslated : UMap
  futures : List (String × String)
  progress : Nat
deriving DecidableEq

/-- The scan state before the first cell. -/
def initScan : ScanState := ⟨[], [], [], 0⟩

/-- One iteration of the scan loop of `main` over `range.cells()`:
non-string cells only advance progress; string cells are trimmed, and
empty/header cells are written verbatim (trimmed), override hits are written
with the override value, seen keys only register the location, and new keys
allocate a future with a generated prompt. -/
def scanCell (dict : Dict) (st : ScanState) (cell : Cell) : ScanState :=
  match cell with
  | (_, _, CellData.Other) => { st with progress := st.progress + 1 }
  | (row, column, CellData.Str raw) =>
    let value := strTrim raw
    if value = "" ∨ row = 0 then
      { st with
        writes := st.writes ++ [(row, column, value)]
        progress := st.progress + 1 }
    else
      let key := strToLower value
      match dict.lookup key with
      | some v =>
        { st with
          writes := st.writes ++ [(row, column, v)]
          progress := st.progress + 1 }
      | none =>
        match st.untranslated.lookup key with
        | some _ => { st with untranslated := umapPush st.untranslated key (row, column) }
        | none =>
          { st with
            untranslated := mapInsert st.untranslated key [(row, column)]
            futures := st.futures ++ [(key, mkPrompt dict key value)] }

/-- The whole scan phase: fold over the grid's cells in iteration order. -/
def scan (dict : Dict) (cells : List Cell) : ScanState :=
  cells.foldl (scanCell dict) initScan

/-- The setup sequence of `main` relevant to phase ordering: the dictionary is
parsed to completion before the source grid is read and scanned; a parse
error aborts the run with no scan and no dispatch. -/
def runSetup (lines : List String) (grid : List Cell) : Except String ScanState :=
  match parseDictionary lines with
  | .error e => .error e
  | .ok dict => .ok (scan dict grid)

/-- Model of a `Choice` in the completion response. -/
structure Choice where
  text : String
deriving DecidableEq

/-- Model of the `Error` payload of the completion response. -/
structure ErrorBody where
  message : String
deriving DecidableEq

/-- Model of the untagged `Response` enum: either a success payload with an
ordered candidate list, or an error payload. -/
inductive Response
  | ok : List Choice → Response
  | err : ErrorBody → Response
deriving DecidableEq

/-- The distinct failure paths of `translate`: a transport-level failure
(the `?` on the request), a service-reported error (`bail!` on the error
payload's message), and an empty candidate list
(`wrap_err("No choice received")` on `choices.pop()`). -/
inductive TranslateError
  | transport : String → TranslateError
  | service : String → TranslateError
  | noChoice : TranslateError
deriving DecidableEq

/-- What the remote call produced before `translate` inspects it: a transport
failure, or a parsed `Response`. -/
inductive FetchResult
  | failure : String → FetchResult
  | response : Response → FetchResult

/-- Model of `translate` after the remote call: a transport failure
propagates; an error payload becomes a service failure; otherwise
`choices.pop()` takes the last candidate, and an empty list is the distinct
`noChoice` failure. -/
def translateModel : FetchResult → Except TranslateError String
  | .failure m => .error (.transport m)
  | .response (.err e) => .error (.service e.message)
  | .response (.ok choices) =>
    match choices.getLast? with
    | some c => .ok c.text
    | none => .error .noChoice

/-- The message carried by each failure (as rendered by `eyre`). -/
def renderError : TranslateError → String
  | .transport m => m
  | .service m => m
  | .noChoice => "No choice received"

/-- A value received from the result channel: a worker sends either
`Ok((key, translated))` or `Err(report)`. -/
inductive Outcome
  | ok : String → String → Outcome
  | err : String → Outcome
deriving DecidableEq

/-- A worker's single send: `translate(prompt, &client).await.map(|v| (key, v))`. -/
def workerOutcome (key : String) (f : FetchResult) : Outcome :=
  match translateModel f with
  | .ok v => .ok key v
  | .error e => .err (renderError e)

/-- State of the collector loop: writes made by it, diagnostic lines printed
via `bar.println`, and progress-bar increments. -/
structure CollectState where
  writes : List (Nat × Nat × String)
  diagnostics : List String
  progress : Nat
deriving DecidableEq

/-- The collector state before the first received outcome. -/
def initCollect : CollectState := ⟨[], [], 0⟩

/-- One iteration of the collector loop: a success outcome indexes
`untranslated[key]` (which panics — modelled as `none` — if the key is
absent) and writes the translated text to every registered location; a
failure outcome only prints its message. -/
def collectStep (untr : UMap) (st : CollectState) (o : Outcome) : Option CollectState :=
  match o with
  | .ok key value =>
    match untr.lookup key with
    | some cells =>
      some { st with
        writes := st.writes ++ cells.map (fun p => (p.1, p.2, value))
        progress := st.progress + cells.length }
    | none => none
  | .err e => some { st with diagnostics := st.diagnostics ++ [e] }

/-- The collector loop over the sequence of outcomes received from the
channel (in arbitrary completion order). -/
def collect (untr : UMap) (st : CollectState) : List Outcome → Option CollectState
  | [] => some st
  | o :: rest =>
    match collectStep untr st o with
    | some st' => collect untr st' rest
    | none => none

/-- All writes a run makes to the destination worksheet, given the grid and
the sequence of outcomes delivered on the channel: the scan-phase writes
followed by the collector's writes. -/
def totalWrites (dict : Dict) (cells : List Cell) (outs : List Outcome) :
    Option (List (Nat × Nat × String)) :=
  (collect (scan dict cells).untranslated initCollect outs).map
    (fun c => (scan dict cells).writes ++ c.writes)

/-- The rate-limit quota: at most `RPM` futures are spawned per timer tick. -/
def RPM : Nat := 60

/-- One burst of the scheduler task: `for _ in 0..n { futures.pop() }`,
spawning each popped future. `Vec::pop` removes from the END of the vector.
Returns the futures started (in spawn order) and the remaining vector. -/
def burstAux {α : Type} : Nat → List α → List α × List α
  | 0, v => ([], v)
  | n + 1, v =>
    match v.getLast? with
    | none => ([], v)
    | some x =>
      let p := burstAux n v.dropLast
      (x :: p.1, p.2)

/-- The scheduler task run to completion: on each tick pop up to `rpm`
futures off the end of the vector and spawn them; the task returns when a
pop finds the vector empty. The concatenation below is the overall spawn
order. (The source runs this with `rpm = RPM = 60`; a zero quota, which
would tick forever spawning nothing, is mapped to the empty spawn order.) -/
def dispatchAll {α : Type} (rpm : Nat) (v : List α) : List α :=
  match v with
  | [] => []
  | x :: t =>
    if h : rpm = 0 then []
    else (burstAux rpm (x :: t)).1 ++ dispatchAll rpm (burstAux rpm (x :: t)).2
termination_by v.length
decreasing_by
  have key : ∀ (n : Nat) (w : List α), (burstAux n w).2.length ≤ w.length := by
    intro n
    induction n with
    | zero => intro w; simp [burstAux]
    | succ n ih =>
      intro w
      unfold burstAux
      cases hw : w.getLast? with
      | none => simp
      | some y =>
        simp only
        have h1 := ih w.dropLast
        have h2 : w.dropLast.length ≤ w.length := by simp [List.length_dropLast]
        omega
  cases rpm with
  | zero => exact absurd rfl h
  | succ n =>
    obtain ⟨y, hy⟩ : ∃ y, (x :: t).getLast? = some y := by
      cases hw : (x :: t).getLast? with
      | none => exact absurd (List.getLast?_eq_none_iff.mp hw) (List.cons_ne_nil x t)
      | some y => exact ⟨y, rfl⟩
    unfold burstAux
    rw [hy]
    simp only
    have h1 := key n (x :: t).dropLast
    have h2 : (x :: t).dropLast.length = (x :: t).length - 1 := List.length_dropLast _
    simp only [List.length_cons] at h2 ⊢
    omega

/-- Model of `BTreeMap::remove` on the association-list map (used only in
proofs, to peel one entry off the registry). -/
def mapErase {α : Type} : List (String × α) → String → List (String × α)
  | [], _ => []
  | (k1, v1) :: t, k => if k = k1 then t else (k1, v1) :: mapErase t k

/-- A cell that the scan turns into (part of) a translation task for `key`:
a non-empty string cell outside the header row whose normalized text is `key`
and which has no override hit. -/
def isTaskCell (dict : Dict) (key : String) : Cell → Bool
  | (r, _, CellData.Str raw) =>
    !(strTrim raw == "") && !(r == 0) && (strToLower (strTrim raw) == key)
      && (dict.lookup key).isNone
  | (_, _, CellData.Other) => false

/-- The locations touched by a list of worksheet writes. -/
def writesLocs (ws : List (Nat × Nat × String)) : List Loc :=
  ws.map (fun w => (w.1, w.2.1))

/-- All locations registered in the dedup registry. -/
def untrLocs (u : UMap) : List Loc :=
  (u.map Prod.snd).flatten

/-- Every location the scan has accounted for: written during the scan, or
registered for a pending task. -/
def allLocs (st : ScanState) : List Loc :=
  writesLocs st.writes ++ untrLocs st.untranslated

/-- The locations of the string-typed cells of the grid (non-string cells are
skipped by the scan and never written). -/
def strLocs (cells : List Cell) : List Loc :=
  cells.filterMap (fun c =>
    match c.2.2 with
    | CellData.Str _ => some (c.1, c.2.1)
    | CellData.Other => none)

/-- The keys of the success outcomes in a channel trace. -/
def okKeys (outs : List Outcome) : List String :=
  outs.filterMap (fun o =>
    match o with
    | .ok k _ => some k
    | .err _ => none)

/-- The writes a single outcome causes (empty for failures and, vacuously,
for a key the registry does not know). -/
def okWrites (untr : UMap) : Outcome → List (Nat × Nat × String)
  | .ok k v => ((untr.lookup k).getD []).map (fun p => (p.1, p.2, v))
  | .err _ => []

/-- Invariant of the scan state: the pending futures carry pairwise distinct
keys, and a key has a future exactly when the dedup registry knows it. -/
def ScanInv (st : ScanState) : Prop :=
  (st.futures.map Prod.fst).Nodup ∧
    ∀ k, k ∈ st.futures.map Prod.fst ↔ (st.untranslated.lookup k).isSome = true

/-! ## Helper lemmas about the association-list maps -/

theorem lookup_cons_eq_if {α β : Type} [BEq α] (a k : α) (b : β) (es : List (α × β)) :
    ((k, b) :: es).lookup a = if a == k then some b else es.lookup a := by
  rw [List.lookup_cons]
  cases a == k <;> simp

theorem strLt_trans {a b c : String} (h1 : strLt a b) (h2 : strLt b c) : strLt a c :=
  lt_trans h1 h2

theorem strLt_connex {a b : String} (h1 : ¬ strLt a b) (h2 : a ≠ b) : strLt b a := by
  rcases lt_trichotomy a.data b.data with h | h | h
  · exact absurd h h1
  · exact absurd (String.ext h) h2
  · exact h

theorem lookup_mapInsert {α : Type} (u : List (String × α)) (k : String) (v : α) (q : String) :
    (mapInsert u k v).lookup q = if q = k then some v else u.lookup q := by
  induction u with
  | nil =>
    simp [mapInsert, lookup_cons_eq_if]
  | cons e t ih =>
    obtain ⟨k1, v1⟩ := e
    by_cases hlt : strLt k k1
    · simp only [mapInsert, if_pos hlt]
      by_cases hq : q = k
      · simp [lookup_cons_eq_if, hq]
      · simp [lookup_cons_eq_if, hq]
    · by_cases heq : k = k1
      · subst heq
        simp only [mapInsert, if_neg hlt, if_pos rfl]
        by_cases hq : q = k
        · simp [lookup_cons_eq_if, hq]
        · simp [lookup_cons_eq_if, hq]
      · simp only [mapInsert, if_neg hlt, if_neg heq]
        by_cases hq : q = k
        · subst hq
          simp [lookup_cons_eq_if, heq, ih]
        · by_cases hq1 : q = k1
          · subst hq1
            simp [lookup_cons_eq_if, hq]
          · simp [lookup_cons_eq_if, hq1, hq, ih]

theorem mem_mapInsert {α : Type} {u : List (String × α)} {k : String} {v : α} {x : String × α}
    (h : x ∈ mapInsert u k v) : x = (k, v) ∨ x ∈ u := by
  induction u with
  | nil => simpa [mapInsert] using h
  | cons e t ih =>
    obtain ⟨k1, v1⟩ := e
    by_cases hlt : strLt k k1
    · simp only [mapInsert, if_pos hlt] at h
      rcases List.mem_cons.mp h with rfl | h
      · exact Or.inl rfl
      · exact Or.inr h
    · by_cases heq : k = k1
      · simp only [mapInsert, if_neg hlt, if_pos heq] at h
        rcases List.mem_cons.mp h with rfl | h
        · exact Or.inl rfl
        · exact Or.inr (List.mem_cons_of_mem _ h)
      · simp only [mapInsert, if_neg hlt, if_neg heq] at h
        rcases List.mem_cons.mp h with rfl | h
        · exact Or.inr (List.mem_cons_self _ _)
        · rcases ih h with h' | h'
          · exact Or.inl h'
          · exact Or.inr (List.mem_cons_of_mem _ h')

theorem pairwise_mapInsert {α : Type} {u : List (String × α)} (k : String) (v : α)
    (h : u.Pairwise (fun a b => strLt a.1 b.1)) :
    (mapInsert u k v).Pairwise (fun a b => strLt a.1 b.1) := by
  induction u with
  | nil => simp [mapInsert]
  | cons e t ih =>
    obtain ⟨k1, v1⟩ := e
    rw [List.pairwise_cons] at h
    obtain ⟨h1, h2⟩ := h
    by_cases hlt : strLt k k1
    · simp only [mapInsert, if_pos hlt]
      refine List.Pairwise.cons ?_ (List.Pairwise.cons h1 h2)
      intro y hy
      rcases List.mem_cons.mp hy with rfl | hy
      · exact hlt
      · exact strLt_trans hlt (h1 y hy)
    · by_cases heq : k = k1
      · subst heq
        simp only [mapInsert, if_neg hlt, if_pos rfl]
        exact List.Pairwise.cons h1 h2
      · simp only [mapInsert, if_neg hlt, if_neg heq]
        refine List.Pairwise.cons ?_ (ih h2)
        intro y hy
        rcases mem_mapInsert hy with rfl | hy
        · exact strLt_connex hlt heq
        · exact h1 y hy

theorem lookup_umapPush (u : UMap) (k : String) (x : Loc) (q : String) :
    (umapPush u k x).lookup q =
      if q = k then (u.lookup k).map (· ++ [x]) else u.lookup q := by
  induction u with
  | nil => simp [umapPush]
  | cons e t ih =>
    obtain ⟨k1, l1⟩ := e
    by_cases hk : k = k1
    · subst hk
      simp only [umapPush, if_pos rfl]
      by_cases hq : q = k
      · simp [lookup_cons_eq_if, hq]
      · simp [lookup_cons_eq_if, hq]
    · simp only [umapPush, if_neg hk]
      by_cases hq : q = k
      · subst hq
        simp [lookup_cons_eq_if, hk, ih]
      · by_cases hq1 : q = k1
        · subst hq1
          simp [lookup_cons_eq_if, hq]
        · simp [lookup_cons_eq_if, hq1, hq, ih]

theorem lookup_mapErase_ne {α : Type} (u : List (String × α)) (k q : String) (hq : q ≠ k) :
    (mapErase u k).lookup q = u.lookup q := by
  induction u with
  | nil => simp [mapErase]
  | cons e t ih =>
    obtain ⟨k1, v1⟩ := e
    by_cases hk : k = k1
    · subst hk
      simp [mapErase, lookup_cons_eq_if, hq]
    · by_cases hq1 : q = k1
      · simp [mapErase, hk, lookup_cons_eq_if, hq1]
      · simp [mapErase, hk, lookup_cons_eq_if, hq1, ih]

theorem append_snoc_perm {α : Type} (a b : List α) (x : α) :
    (a ++ [x]) ++ b ~ (a ++ b) ++ [x] := by
  calc (a ++ [x]) ++ b = a ++ ([x] ++ b) := List.append_assoc a [x] b
    _ ~ a ++ (b ++ [x]) := List.Perm.append_left a List.perm_append_comm
    _ = (a ++ b) ++ [x] := (List.append_assoc a b [x]).symm

theorem untrLocs_umapPush {u : UMap} {k : String} (x : Loc)
    (h : (u.lookup k).isSome = true) :
    untrLocs (umapPush u k x) ~ untrLocs u ++ [x] := by
  induction u with
  | nil => simp at h
  | cons e t ih =>
    obtain ⟨k1, l1⟩ := e
    by_cases hk : k = k1
    · subst hk
      simp only [umapPush, if_pos rfl, untrLocs, List.map_cons, List.flatten_cons]
      exact append_snoc_perm l1 ((t.map Prod.snd).flatten) x
    · have h' : (t.lookup k).isSome = true := by
        simpa [lookup_cons_eq_if, hk] using h
      simp only [umapPush, if_neg hk, untrLocs, List.map_cons, List.flatten_cons]
      calc l1 ++ (((umapPush t k x).map Prod.snd).flatten)
          ~ l1 ++ ((t.map Prod.snd).flatten ++ [x]) := List.Perm.append_left l1 (ih h')
        _ = (l1 ++ (t.map Prod.snd).flatten) ++ [x] :=
            (List.append_assoc l1 ((t.map Prod.snd).flatten) [x]).symm

theorem untrLocs_mapInsert {u : UMap} {k : String} (l0 : List Loc)
    (h : u.lookup k = none) :
    untrLocs (mapInsert u k l0) ~ untrLocs u ++ l0 := by
  induction u with
  | nil => simp [mapInsert, untrLocs]
  | cons e t ih =>
    obtain ⟨k1, l1⟩ := e
    by_cases hlt : strLt k k1
    · simp only [mapInsert, if_pos hlt, untrLocs, List.map_cons, List.flatten_cons]
      exact List.perm_append_comm
    · by_cases heq : k = k1
      · subst heq
        simp [lookup_cons_eq_if] at h
      · have h' : t.lookup k = none := by
          simpa [lookup_cons_eq_if, heq] using h
        simp only [mapInsert, if_neg hlt, if_neg heq, untrLocs, List.map_cons,
          List.flatten_cons]
        calc l1 ++ (((mapInsert t k l0).map Prod.snd).flatten)
            ~ l1 ++ ((t.map Prod.snd).flatten ++ l0) := List.Perm.append_left l1 (ih h')
          _ = (l1 ++ (t.map Prod.snd).flatten) ++ l0 :=
              (List.append_assoc l1 ((t.map Prod.snd).flatten) l0).symm

theorem untrLocs_mapErase {u : UMap} {k : String} {l : List Loc}
    (h : u.lookup k = some l) :
    untrLocs u ~ l ++ untrLocs (mapErase u k) := by
  induction u with
  | nil => simp at h
  | cons e t ih =>
    obtain ⟨k1, l1⟩ := e
    by_cases hk : k = k1
    · subst hk
      simp only [lookup_cons_eq_if, if_pos (beq_self_eq_true k)] at h
      obtain rfl : l1 = l := by simpa using h
      simp [mapErase, untrLocs]
    · have h' : t.lookup k = some l := by
        simpa [lookup_cons_eq_if, hk] using h
      simp only [mapErase, if_neg hk, untrLocs, List.map_cons, List.flatten_cons]
      calc l1 ++ ((t.map Prod.snd).flatten)
          ~ l1 ++ (l ++ ((mapErase t k).map Prod.snd).flatten) :=
            List.Perm.append_left l1 (ih h')
        _ = (l1 ++ l) ++ ((mapErase t k).map Prod.snd).flatten :=
            (List.append_assoc l1 l _).symm
        _ ~ (l ++ l1) ++ ((mapErase t k).map Prod.snd).flatten :=
            List.Perm.append_right _ List.perm_append_comm
        _ = l ++ (l1 ++ ((mapErase t k).map Prod.snd).flatten) :=
            List.append_assoc l l1 _

/-! ## Scan-phase invariants -/

theorem scanInv_initScan : ScanInv initScan := by
  constructor
  · simp [initScan]
  · intro k
    simp [initScan]

theorem scanInv_scanCell (dict : Dict) (st : ScanState) (c : Cell) (h : ScanInv st) :
    ScanInv (scanCell dict st c) := by
  obtain ⟨h1, h2⟩ := h
  obtain ⟨row, column, data⟩ := c
  cases data with
  | Other => exact ⟨h1, h2⟩
  | Str raw =>
    simp only [scanCell]
    by_cases hv : strTrim raw = "" ∨ row = 0
    · rw [if_pos hv]
      exact ⟨h1, h2⟩
    · rw [if_neg hv]
      cases hd : dict.lookup (strToLower (strTrim raw)) with
      | some v => exact ⟨h1, h2⟩
      | none =>
        cases hu : st.untranslated.lookup (strToLower (strTrim raw)) with
        | some cells0 =>
          refine ⟨h1, fun k => ?_⟩
          simp only [lookup_umapPush]
          by_cases hk : k = strToLower (strTrim raw)
          · subst hk
            rw [if_pos rfl, hu]
            simp [h2, hu]
          · rw [if_neg hk]
            exact h2 k
        | none =>
          constructor
          · simp only [List.map_append, List.map_cons, List.map_nil]
            refine List.Nodup.append h1 (List.nodup_singleton _) ?_
            intro a ha hb
            rcases List.mem_singleton.mp hb with rfl
            have hmem := (h2 (strToLower (strTrim raw))).mp ha
            rw [hu] at hmem
            simp at hmem
          · intro k
            simp only [List.map_append, List.map_cons, List.map_nil, List.mem_append,
              List.mem_singleton, lookup_mapInsert]
            by_cases hk : k = strToLower (strTrim raw)
            · subst hk
              simp
            · rw [if_neg hk]
              simp only [hk, or_false]
              exact h2 k

theorem scanInv_foldl (dict : Dict) (cells : List Cell) (st : ScanState) (h : ScanInv st) :
    ScanInv (cells.foldl (scanCell dict) st) := by
  induction cells generalizing st with
  | nil => exact h
  | cons c rest ih => exact ih _ (scanInv_scanCell dict st c h)

theorem scanInv_scan (dict : Dict) (cells : List Cell) : ScanInv (scan dict cells) :=
  scanInv_foldl dict cells initScan scanInv_initScan

theorem lookup_isSome_scanCell (dict : Dict) (st : ScanState) (c : Cell) (k : String)
    (h : (st.untranslated.lookup k).isSome = true) :
    ((scanCell dict st c).untranslated.lookup k).isSome = true := by
  obtain ⟨row, column, data⟩ := c
  cases data with
  | Other => exact h
  | Str raw =>
    simp only [scanCell]
    by_cases hv : strTrim raw = "" ∨ row = 0
    · rw [if_pos hv]
      exact h
    · rw [if_neg hv]
      cases hd : dict.lookup (strToLower (strTrim raw)) with
      | some v => exact h
      | none =>
        cases hu : st.untranslated.lookup (strToLower (strTrim raw)) with
        | some cells0 =>
          simp only [lookup_umapPush]
          by_cases hk : k = strToLower (strTrim raw)
          · subst hk
            rw [if_pos rfl, hu]
            simp
          · rw [if_neg hk]
            exact h
        | none =>
          simp only [lookup_mapInsert]
          by_cases hk : k = strToLower (strTrim raw)
          · rw [if_pos hk]
            simp
          · rw [if_neg hk]
            exact h

theorem lookup_isSome_foldl (dict : Dict) (cells : List Cell) (st : ScanState) (k : String)
    (h : (st.untranslated.lookup k).isSome = true) :
    ((cells.foldl (scanCell dict) st).untranslated.lookup k).isSome = true := by
  induction cells generalizing st with
  | nil => exact h
  | cons c rest ih => exact ih _ (lookup_isSome_scanCell dict st c k h)

theorem taskcell_scanCell_isSome (dict : Dict) (st : ScanState) (k : String) (c : Cell)
    (hc : isTaskCell dict k c = true) :
    ((scanCell dict st c).untranslated.lookup k).isSome = true := by
  obtain ⟨row, column, data⟩ := c
  cases data with
  | Other => simp [isTaskCell] at hc
  | Str raw =>
    simp only [isTaskCell, Bool.and_eq_true, Bool.not_eq_true', beq_eq_false_iff_ne,
      beq_iff_eq, Option.isNone_iff_eq_none, ne_eq] at hc
    obtain ⟨⟨⟨hne, hrow⟩, hkey⟩, hdict⟩ := hc
    simp only [scanCell]
    rw [if_neg (by push_neg; exact ⟨hne, hrow⟩)]
    rw [hkey, hdict]
    cases hu : st.untranslated.lookup k with
    | some cells0 =>
      simp only [lookup_umapPush, if_pos rfl, hu]
      simp
    | none =>
      simp only [lookup_mapInsert, if_pos rfl]
      simp

theorem taskcell_foldl_isSome (dict : Dict) (cells : List Cell) (k : String)
    (h : ∃ c ∈ cells, isTaskCell dict k c = true) (st : ScanState) :
    ((cells.foldl (scanCell dict) st).untranslated.lookup k).isSome = true := by
  induction cells generalizing st with
  | nil => simp at h
  | cons c rest ih =>
    rcases h with ⟨c', hc', htask⟩
    rcases List.mem_cons.mp hc' with rfl | hmem
    · exact lookup_isSome_foldl dict rest _ k (taskcell_scanCell_isSome dict st k c' htask)
    · exact ih ⟨c', hmem, htask⟩ _

/-! ## Location accounting of the scan phase -/

theorem strLocs_cons (c : Cell) (cells : List Cell) :
    strLocs (c :: cells) = strLocs [c] ++ strLocs cells := by
  obtain ⟨r, co, d⟩ := c
  cases d <;> simp [strLocs]

theorem allLocs_scanCell (dict : Dict) (st : ScanState) (c : Cell) :
    allLocs (scanCell dict st c) ~ allLocs st ++ strLocs [c] := by
  obtain ⟨row, column, data⟩ := c
  cases data with
  | Other =>
    simp only [scanCell, strLocs, List.filterMap]
    simp [allLocs]
  | Str raw =>
    have hs : strLocs [(row, column, CellData.Str raw)] = [(row, column)] := by
      simp [strLocs]
    rw [hs]
    simp only [scanCell]
    by_cases hv : strTrim raw = "" ∨ row = 0
    · rw [if_pos hv]
      simp only [allLocs, writesLocs, List.map_append, List.map_cons, List.map_nil]
      exact append_snoc_perm _ _ _
    · rw [if_neg hv]
      cases hd : dict.lookup (strToLower (strTrim raw)) with
      | some v =>
        simp only [allLocs, writesLocs, List.map_append, List.map_cons, List.map_nil]
        exact append_snoc_perm _ _ _
      | none =>
        cases hu : st.untranslated.lookup (strToLower (strTrim raw)) with
        | some cells0 =>
          simp only [allLocs]
          calc writesLocs st.writes ++ untrLocs (umapPush st.untranslated
                  (strToLower (strTrim raw)) (row, column))
              ~ writesLocs st.writes ++ (untrLocs st.untranslated ++ [(row, column)]) :=
                List.Perm.append_left _ (untrLocs_umapPush _ (by rw [hu]; rfl))
            _ = (writesLocs st.writes ++ untrLocs st.untranslated) ++ [(row, column)] :=
                (List.append_assoc _ _ _).symm
        | none =>
          simp only [allLocs]
          calc writesLocs st.writes ++ untrLocs (mapInsert st.untranslated
                  (strToLower (strTrim raw)) [(row, column)])
              ~ writesLocs st.writes ++ (untrLocs st.untranslated ++ [(row, column)]) :=
                List.Perm.append_left _ (untrLocs_mapInsert _ hu)
            _ = (writesLocs st.writes ++ untrLocs st.untranslated) ++ [(row, column)] :=
                (List.append_assoc _ _ _).symm

theorem allLocs_foldl (dict : Dict) (cells : List Cell) (st : ScanState) :
    allLocs (cells.foldl (scanCell dict) st) ~ allLocs st ++ strLocs cells := by
  induction cells generalizing st with
  | nil => simp [strLocs]
  | cons c rest ih =>
    calc allLocs (rest.foldl (scanCell dict) (scanCell dict st c))
        ~ allLocs (scanCell dict st c) ++ strLocs rest := ih _
      _ ~ (allLocs st ++ strLocs [c]) ++ strLocs rest :=
          List.Perm.append_right _ (allLocs_scanCell dict st c)
      _ = allLocs st ++ strLocs (c :: rest) := by
          rw [List.append_assoc, ← strLocs_cons]

theorem allLocs_scan (dict : Dict) (cells : List Cell) :
    allLocs (scan dict cells) ~ strLocs cells := by
  have h := allLocs_foldl dict cells initScan
  simpa [allLocs, initScan, writesLocs, untrLocs] using h

/-! ## Collector lemmas -/

theorem collect_cons_err (untr : UMap) (st : CollectState) (m : String)
    (rest : List Outcome) :
    collect untr st (Outcome.err m :: rest) =
      collect untr { st with diagnostics := st.diagnostics ++ [m] } rest := rfl

theorem collect_writes (untr : UMap) (outs : List Outcome) (st st' : CollectState)
    (h : collect untr st outs = some st') :
    st'.writes = st.writes ++ (outs.map (okWrites untr)).flatten := by
  induction outs generalizing st with
  | nil =>
    simp only [collect, Option.some.injEq] at h
    subst h
    simp
  | cons o rest ih =>
    have hstep : collect untr st (o :: rest) =
        match collectStep untr st o with
        | some st1 => collect untr st1 rest
        | none => none := rfl
    rw [hstep] at h
    cases hc : collectStep untr st o with
    | none =>
      rw [hc] at h
      simp at h
    | some st1 =>
      rw [hc] at h
      have hw := ih st1 h
      have hone : st1.writes = st.writes ++ okWrites untr o := by
        cases o with
        | ok k v =>
          simp only [collectStep] at hc
          cases hu : untr.lookup k with
          | none =>
            rw [hu] at hc
            simp at hc
          | some cells =>
            rw [hu] at hc
            obtain rfl := Option.some.inj hc
            simp [okWrites, hu]
        | err m =>
          simp only [collectStep] at hc
          obtain rfl := Option.some.inj hc
          simp [okWrites]
      rw [hw, hone, List.map_cons, List.flatten_cons, List.append_assoc]

theorem collect_isSome (untr : UMap) (outs : List Outcome)
    (h : ∀ k v, Outcome.ok k v ∈ outs → (untr.lookup k).isSome = true)
    (st : CollectState) :
    (collect untr st outs).isSome = true := by
  induction outs generalizing st with
  | nil => simp [collect]
  | cons o rest ih =>
    cases o with
    | ok k v =>
      have hk := h k v (List.mem_cons_self _ _)
      cases hu : untr.lookup k with
      | none =>
        rw [hu] at hk
        simp at hk
      | some cells =>
        have hstep : collect untr st (Outcome.ok k v :: rest) =
            collect untr
              { st with
                writes := st.writes ++ cells.map (fun p => (p.1, p.2, v))
                progress := st.progress + cells.length } rest := by
          simp only [collect, collectStep, hu]
        rw [hstep]
        exact ih (fun k' v' hm => h k' v' (List.mem_cons_of_mem _ hm)) _
    | err m =>
      rw [collect_cons_err]
      exact ih (fun k' v' hm => h k' v' (List.mem_cons_of_mem _ hm)) _

theorem selectLocs_subperm (u : UMap) (ks : List String) (hks : ks.Nodup) :
    (ks.filterMap (fun k => u.lookup k)).flatten <+~ untrLocs u := by
  induction ks generalizing u with
  | nil => simp
  | cons k ks ih =>
    rw [List.nodup_cons] at hks
    obtain ⟨hk, hks⟩ := hks
    cases hu : u.lookup k with
    | none =>
      simp only [List.filterMap_cons, hu]
      exact ih u hks
    | some l =>
      simp only [List.filterMap_cons, hu, List.flatten_cons]
      have hcongr : ks.filterMap (fun q => u.lookup q) =
          ks.filterMap (fun q => (mapErase u k).lookup q) := by
        apply List.filterMap_congr
        intro q hq
        exact (lookup_mapErase_ne u k q (fun hh => hk (hh ▸ hq))).symm
      rw [hcongr]
      exact Subperm.trans ((List.subperm_append_left l).mpr (ih (mapErase u k) hks))
        (untrLocs_mapErase hu).symm.subperm

/-! ## Dictionary-parsing lemmas -/

theorem parseDictAux_ok_sorted {lines : List String} {d : Dict} {i : Nat} {dict : Dict}
    (hd : d.Pairwise (fun a b => strLt a.1 b.1))
    (h : parseDictAux d i lines = .ok dict) :
    dict.Pairwise (fun a b => strLt a.1 b.1) := by
  induction lines generalizing d i with
  | nil =>
    simp only [parseDictAux, Except.ok.injEq] at h
    subst h
    exact hd
  | cons line rest ih =>
    simp only [parseDictAux] at h
    cases hs : splitOnceStr '–' line with
    | none =>
      rw [hs] at h
      simp at h
    | some p =>
      obtain ⟨pk, pv⟩ := p
      rw [hs] at h
      exact ih (pairwise_mapInsert _ _ hd) h

theorem parseDictionary_sorted {lines : List String} {dict : Dict}
    (h : parseDictionary lines = .ok dict) :
    dict.Pairwise (fun a b => strLt a.1 b.1) :=
  parseDictAux_ok_sorted List.Pairwise.nil h

theorem parseDictAux_error_at (lines : List String) (i : Nat) (line : String)
    (d : Dict) (n : Nat)
    (hget : lines[i]? = some line)
    (hbad : splitOnceStr '–' line = none)
    (hgood : ∀ j l, j < i → lines[j]? = some l → (splitOnceStr '–' l).isSome = true) :
    parseDictAux d n lines = .error ("Invalid entry at line #" ++ toString (n + i + 1)) := by
  induction lines generalizing d n i with
  | nil => simp at hget
  | cons line0 rest ih =>
    cases i with
    | zero =>
      obtain rfl : line0 = line := by simpa using hget
      simp [parseDictAux, hbad]
    | succ i' =>
      have hsome : (splitOnceStr '–' line0).isSome = true :=
        hgood 0 line0 (Nat.succ_pos i') (by simp)
      cases hs : splitOnceStr '–' line0 with
      | none =>
        rw [hs] at hsome
        simp at hsome
      | some p =>
        obtain ⟨pk, pv⟩ := p
        simp only [parseDictAux, hs]
        have hrec := ih i' (mapInsert d (strToLower (strTrim pk)) (strTrim pv)) (n + 1)
          (by simpa using hget)
          (fun j l hj hl => hgood (j + 1) l (by omega) (by simpa using hl))
        have hx : n + 1 + i' + 1 = n + (i' + 1) + 1 := by omega
        rw [hrec, hx]

/-! ## Dispatcher lemmas -/

theorem burstAux_fst {α : Type} (n : Nat) (v : List α) :
    (burstAux n v).1 = v.reverse.take n := by
  induction n generalizing v with
  | zero => simp [burstAux]
  | succ n ih =>
    cases hv : v.getLast? with
    | none =>
      have hnil : v = [] := List.getLast?_eq_none_iff.mp hv
      subst hnil
      simp [burstAux]
    | some x =>
      have hh : v.reverse.head? = some x := by rw [List.head?_reverse]; exact hv
      obtain ⟨ys, hys⟩ := List.head?_eq_some_iff.mp hh
      have hys' : ys = v.dropLast.reverse := by
        have ht := congrArg List.tail hys
        simpa [List.tail_reverse] using ht.symm
      unfold burstAux
      rw [hv]
      simp only [ih, hys, hys', List.take_succ_cons]

theorem burstAux_snd {α : Type} (n : Nat) (v : List α) :
    (burstAux n v).2 = (v.reverse.drop n).reverse := by
  induction n generalizing v with
  | zero => simp [burstAux]
  | succ n ih =>
    cases hv : v.getLast? with
    | none =>
      have hnil : v = [] := List.getLast?_eq_none_iff.mp hv
      subst hnil
      simp [burstAux]
    | some x =>
      have hh : v.reverse.head? = some x := by rw [List.head?_reverse]; exact hv
      obtain ⟨ys, hys⟩ := List.head?_eq_some_iff.mp hh
      have hys' : ys = v.dropLast.reverse := by
        have ht := congrArg List.tail hys
        simpa [List.tail_reverse] using ht.symm
      unfold burstAux
      rw [hv]
      simp only [ih, hys, hys', List.drop_succ_cons]

theorem dispatchAll_le_eq_reverse {α : Type} (rpm : Nat) (hr : rpm ≠ 0) :
    ∀ (n : Nat) (v : List α), v.length ≤ n → dispatchAll rpm v = v.reverse := by
  intro n
  induction n with
  | zero =>
    intro v hv
    have hnil : v = [] := List.eq_nil_of_length_eq_zero (Nat.le_zero.mp hv)
    subst hnil
    simp [dispatchAll]
  | succ n ih =>
    intro v hv
    cases v with
    | nil => simp [dispatchAll]
    | cons x t =>
      unfold dispatchAll
      rw [dif_neg hr, burstAux_fst, burstAux_snd]
      have hlen : (((x :: t).reverse.drop rpm).reverse).length ≤ n := by
        simp only [List.length_reverse, List.length_drop, List.length_cons]
        cases rpm with
        | zero => exact absurd rfl hr
        | succ m =>
          simp only [List.length_cons] at hv
          omega
      rw [ih _ hlen, List.reverse_reverse, List.take_append_drop]

theorem dispatchAll_eq_reverse {α : Type} (rpm : Nat) (hr : rpm ≠ 0) (v : List α) :
    dispatchAll rpm v = v.reverse :=
  dispatchAll_le_eq_reverse rpm hr v.length v Nat.le.refl

/-! ## Hint-building lemmas -/

theorem buildTranslations_eq_hints (dict : Dict) (key : String) :
    buildTranslations dict key =
      (hintsList dict key).foldl (fun acc kv => acc ++ kv.1 ++ " – " ++ kv.2 ++ "\n") "" := by
  suffices h : ∀ (d : Dict) (acc : String),
      d.foldl (fun acc kv =>
        if strContains key kv.1 then acc ++ kv.1 ++ " – " ++ kv.2 ++ "\n" else acc) acc =
      (d.filter (fun kv => strContains key kv.1)).foldl
        (fun acc kv => acc ++ kv.1 ++ " – " ++ kv.2 ++ "\n") acc by
    exact h dict ""
  intro d
  induction d with
  | nil => intro acc; simp
  | cons e t ih =>
    intro acc
    by_cases hc : strContains key e.1
    · simp [List.filter_cons, hc, ih]
    · simp [List.filter_cons, hc, ih]

/-! ## Claim theorems -/

/-- C4 counterexample: the claim says header-row and empty/whitespace-only
cells are copied verbatim (unchanged). On the header cell (0, 0) with text
`" x "` the scan writes the trimmed text `"x"`, not the original `" x "`. -/
theorem c4_counterexample :
    (scan [] [(0, 0, CellData.Str " x ")]).writes = [(0, 0, "x")] ∧
      ("x" : String) ≠ " x " :=
  ⟨by decide, by decide⟩

/-- C4 (amended): for every cell in the header row (row 0) and every cell
whose text is empty or whitespace-only, the scan writes the TRIMMED input
text at that location, regardless of the contents of the override dictionary,
and involves no task: the registry, futures and all other state are
untouched. -/
theorem c4_verbatim_writes_trimmed (dict : Dict) (st : ScanState) (r c : Nat)
    (raw : String) (h : strTrim raw = "" ∨ r = 0) :
    scanCell dict st (r, c, CellData.Str raw) =
      { st with
        writes := st.writes ++ [(r, c, strTrim raw)]
        progress := st.progress + 1 } := by
  simp only [scanCell]
  rw [if_pos h]

/-- Witness for C4: a concrete header cell with padded text, and a nonempty
dictionary that could never apply. -/
theorem c4_witness :
    scanCell [("x", "y")] initScan (0, 0, CellData.Str " x ") =
      { initScan with
        writes := initScan.writes ++ [(0, 0, strTrim " x ")]
        progress := initScan.progress + 1 } :=
  c4_verbatim_writes_trimmed [("x", "y")] initScan 0 0 " x " (by decide)

/-- C5: for every non-header, non-empty cell whose normalized text exactly
matches an override dictionary key, the scan writes the override's value at
that location and creates no task and no future — no remote request is ever
issued for that cell. -/
theorem c5_override_hit (dict : Dict) (st : ScanState) (r c : Nat) (raw v : String)
    (hr : r ≠ 0) (hne : strTrim raw ≠ "")
    (hget : dict.lookup (strToLower (strTrim raw)) = some v) :
    scanCell dict st (r, c, CellData.Str raw) =
      { st with
        writes := st.writes ++ [(r, c, v)]
        progress := st.progress + 1 } := by
  simp only [scanCell]
  rw [if_neg (by push_neg; exact ⟨hne, hr⟩), hget]

/-- Witness for C5 (Scenario A of the spec): overrides `{"cat": "pisică"}`,
cell (1, 0) = `"Cat"`: the output is `"pisică"` and no future is created. -/
theorem c5_witness :
    scanCell [("cat", "pisică")] initScan (1, 0, CellData.Str "Cat") =
      { initScan with
        writes := initScan.writes ++ [(1, 0, "pisică")]
        progress := initScan.progress + 1 } :=
  c5_override_hit [("cat", "pisică")] initScan 1 0 "Cat" "pisică"
    (by decide) (by decide) (by decide)

/-- C7: on a successful service response the worker returns the text of the
LAST candidate in the choices list (`choices.pop()`); an empty choices list
yields the distinct `noChoice` failure (rendered "No choice received"),
which is a different failure from any service-reported error. -/
theorem c7_last_candidate_policy :
    (∀ (cs : List Choice) (c : Choice),
      translateModel (FetchResult.response (Response.ok (cs ++ [c]))) =
        Except.ok c.text) ∧
    translateModel (FetchResult.response (Response.ok [])) =
      Except.error TranslateError.noChoice ∧
    renderError TranslateError.noChoice = "No choice received" ∧
    (∀ m : String, TranslateError.noChoice ≠ TranslateError.service m) := by
  refine ⟨?_, rfl, rfl, ?_⟩
  · intro cs c
    simp [translateModel, List.getLast?_concat]
  · intro m h
    exact TranslateError.noConfusion h

/-- C6: a failed translation (any `translateModel` error) makes the worker
emit an `err` outcome; the collector appends the message to the diagnostics
stream, leaves its writes untouched, does not fail, and continues with the
remaining outcomes — a per-task failure never aborts the run. -/
theorem c6_failure_isolated (untr : UMap) (st : CollectState) (key msg : String)
    (rest : List Outcome) (f : FetchResult) (e : TranslateError)
    (hf : translateModel f = Except.error e) :
    workerOutcome key f = Outcome.err (renderError e) ∧
    collectStep untr st (Outcome.err msg) =
      some { st with diagnostics := st.diagnostics ++ [msg] } ∧
    collect untr st (Outcome.err msg :: rest) =
      collect untr { st with diagnostics := st.diagnostics ++ [msg] } rest := by
  refine ⟨?_, rfl, rfl⟩
  simp [workerOutcome, hf]

/-- Witness for C6 (Scenario C of the spec): the service reports
`rate limited`; the outcome is an error, the message lands in diagnostics,
and the collector proceeds. -/
theorem c6_witness :
    workerOutcome "hello" (FetchResult.response (Response.err ⟨"rate limited"⟩)) =
      Outcome.err (renderError (TranslateError.service "rate limited")) ∧
    collectStep [] initCollect (Outcome.err "rate limited") =
      some { initCollect with
        diagnostics := initCollect.diagnostics ++ ["rate limited"] } ∧
    collect [] initCollect (Outcome.err "rate limited" :: []) =
      collect [] { initCollect with
        diagnostics := initCollect.diagnostics ++ ["rate limited"] } [] :=
  c6_failure_isolated [] initCollect "hello" "rate limited" []
    (FetchResult.response (Response.err ⟨"rate limited"⟩))
    (TranslateError.service "rate limited") rfl

/-- C9: if the override dictionary file has a line with no `–` separator (and
is the first such line), the run aborts with `Invalid entry at line #n`
(1-based) before the source grid is read: for EVERY grid the result is the
same error and no scan state is ever produced. -/
theorem c9_bad_dict_line_aborts (lines : List String) (i : Nat) (line : String)
    (hget : lines[i]? = some line)
    (hbad : splitOnceStr '–' line = none)
    (hgood : ∀ j l, j < i → lines[j]? = some l → (splitOnceStr '–' l).isSome = true) :
    ∀ grid : List Cell,
      runSetup lines grid = Except.error ("Invalid entry at line #" ++ toString (i + 1)) := by
  intro grid
  have hp := parseDictAux_error_at lines i line [] 0 hget hbad hgood
  have h0 : 0 + i + 1 = i + 1 := by omega
  rw [h0] at hp
  simp only [runSetup, parseDictionary] at hp ⊢
  rw [hp]

/-- Witness for C9 (Scenario D of the spec): line 2 of the dictionary has no
separator; the run aborts with that line number, whatever the grid holds. -/
theorem c9_witness :
    runSetup ["a – b", "nosep"] [(1, 0, CellData.Str "hi")] =
      Except.error "Invalid entry at line #2" := by
  have hgood : ∀ j l, j < 1 → (["a – b", "nosep"] : List String)[j]? = some l →
      (splitOnceStr '–' l).isSome = true := by
    intro j l hj hl
    obtain rfl : j = 0 := by omega
    obtain rfl : l = "a – b" := by
      have hh := hl
      simp at hh
      exact hh.symm
    decide
  exact c9_bad_dict_line_aborts ["a – b", "nosep"] 1 "nosep" (by decide) (by decide)
    hgood [(1, 0, CellData.Str "hi")]

/-- C3 counterexample: with two distinct keys discovered in scan order
"alpha" then "beta", the first burst starts "beta" FIRST: the scheduler's
`futures.pop()` releases the newest queued task, not the oldest — dispatch is
not FIFO. -/
theorem c3_counterexample :
    ((burstAux RPM (scan [] [(1, 0, CellData.Str "alpha"),
        (1, 1, CellData.Str "beta")]).futures).1.map Prod.fst = ["beta", "alpha"]) ∧
      (["beta", "alpha"] ≠ (["alpha", "beta"] : List String)) :=
  ⟨by decide, by decide⟩

/-- C3 (amended): the dispatcher releases queued tasks in LIFO order: every
burst starts the newest still-queued tasks, newest first (the last `rpm`
entries of the queue, reversed), and the overall dispatch order is exactly
the reverse of the order the keys were discovered during the scan. -/
theorem c3_lifo_dispatch (rpm : Nat) (v : List (String × String)) (hr : rpm ≠ 0) :
    (burstAux rpm v).1 = v.reverse.take rpm ∧ dispatchAll rpm v = v.reverse :=
  ⟨burstAux_fst rpm v, dispatchAll_eq_reverse rpm hr v⟩

/-- Witness for C3: two queued futures under the program's quota `RPM`. -/
theorem c3_witness :
    (burstAux RPM [("a", "pa"), ("b", "pb")]).1 =
      ([("a", "pa"), ("b", "pb")] : List (String × String)).reverse.take RPM ∧
    dispatchAll RPM [("a", "pa"), ("b", "pb")] =
      ([("a", "pa"), ("b", "pb")] : List (String × String)).reverse :=
  c3_lifo_dispatch RPM [("a", "pa"), ("b", "pb")] (by decide)

/-- C8: for every key, the hint text built into the prompt is the fold of
exactly those override entries whose key is a substring of the normalized
key, in ascending key order (the dictionary produced by parsing is sorted,
and filtering preserves that order). -/
theorem c8_hints_exact_and_sorted (lines : List String) (dict : Dict) (key : String)
    (hp : parseDictionary lines = Except.ok dict) :
    (∀ k v, (k, v) ∈ hintsList dict key ↔
      ((k, v) ∈ dict ∧ strContains key k = true)) ∧
    (hintsList dict key).Pairwise (fun a b => strLt a.1 b.1) ∧
    buildTranslations dict key =
      (hintsList dict key).foldl
        (fun acc kv => acc ++ kv.1 ++ " – " ++ kv.2 ++ "\n") "" := by
  refine ⟨?_, ?_, buildTranslations_eq_hints dict key⟩
  · intro k v
    simp [hintsList, List.mem_filter]
  · exact (parseDictionary_sorted hp).sublist (List.filter_sublist dict)

/-- Witness for C8: overrides cat/dog, key "the cat": only the cat entry is a
substring hit. -/
theorem c8_witness :
    (∀ k v, (k, v) ∈ hintsList [("cat", "pisică"), ("dog", "câine")] "the cat" ↔
      ((k, v) ∈ ([("cat", "pisică"), ("dog", "câine")] : Dict) ∧
        strContains "the cat" k = true)) ∧
    (hintsList [("cat", "pisică"), ("dog", "câine")] "the cat").Pairwise
      (fun a b => strLt a.1 b.1) ∧
    buildTranslations [("cat", "pisică"), ("dog", "câine")] "the cat" =
      (hintsList [("cat", "pisică"), ("dog", "câine")] "the cat").foldl
        (fun acc kv => acc ++ kv.1 ++ " – " ++ kv.2 ++ "\n") "" :=
  c8_hints_exact_and_sorted ["cat – pisică", "dog – câine"]
    [("cat", "pisică"), ("dog", "câine")] "the cat" rfl

/-- C1: if some grid cell is a task cell for `key` (non-header, non-empty,
no override hit, normalizing to `key`), then exactly one future — hence one
outbound request — is created for `key`, and on a success outcome for `key`
the collector writes the SAME translated text to every location registered
for `key`. -/
theorem c1_dedup_single_request_uniform_writes (dict : Dict) (cells : List Cell)
    (key : String) (h : ∃ c ∈ cells, isTaskCell dict key c = true) :
    ((scan dict cells).futures.map Prod.fst).count key = 1 ∧
    (∀ value st st',
      collectStep (scan dict cells).untranslated st (Outcome.ok key value) = some st' →
      ∃ locs, (scan dict cells).untranslated.lookup key = some locs ∧
        st'.writes = st.writes ++ locs.map (fun p => (p.1, p.2, value))) := by
  have hsome : ((scan dict cells).untranslated.lookup key).isSome = true :=
    taskcell_foldl_isSome dict cells key h initScan
  obtain ⟨hnodup, hiff⟩ := scanInv_scan dict cells
  constructor
  · exact List.count_eq_one_of_mem hnodup ((hiff key).mpr hsome)
  · intro value st st' hc
    obtain ⟨locs, hlocs⟩ := Option.isSome_iff_exists.mp hsome
    refine ⟨locs, hlocs, ?_⟩
    simp only [collectStep, hlocs] at hc
    obtain rfl := Option.some.inj hc
    rfl

/-- Witness for C1 (Scenario B of the spec): cells `"Hello"` and `"hello"`
share the key `"hello"`; one future exists and a success outcome writes the
same text everywhere the key occurs. -/
theorem c1_witness :
    ((scan [] [(1, 0, CellData.Str "Hello"),
        (5, 2, CellData.Str "hello")]).futures.map Prod.fst).count "hello" = 1 ∧
    (∀ value st st',
      collectStep (scan [] [(1, 0, CellData.Str "Hello"),
          (5, 2, CellData.Str "hello")]).untranslated st
        (Outcome.ok "hello" value) = some st' →
      ∃ locs, (scan [] [(1, 0, CellData.Str "Hello"),
          (5, 2, CellData.Str "hello")]).untranslated.lookup "hello" = some locs ∧
        st'.writes = st.writes ++ locs.map (fun p => (p.1, p.2, value))) :=
  c1_dedup_single_request_uniform_writes []
    [(1, 0, CellData.Str "Hello"), (5, 2, CellData.Str "hello")] "hello" (by decide)

/-- C10 (implicit): every key ever put into a future was inserted into the
dedup registry first, so if each success outcome on the channel carries the
key of some future, the collector's direct indexing `untranslated[key]`
never fails and the collector loop runs to completion. -/
theorem c10_collector_indexing_total (dict : Dict) (cells : List Cell)
    (outs : List Outcome)
    (h : ∀ k v, Outcome.ok k v ∈ outs → k ∈ (scan dict cells).futures.map Prod.fst) :
    (collect (scan dict cells).untranslated initCollect outs).isSome = true := by
  obtain ⟨hnodup, hiff⟩ := scanInv_scan dict cells
  exact collect_isSome _ outs (fun k v hm => (hiff k).mp (h k v hm)) initCollect

/-- Witness for C10: one task cell, one success outcome carrying its key. -/
theorem c10_witness :
    (collect (scan [] [(1, 0, CellData.Str "hi")]).untranslated initCollect
      [Outcome.ok "hi" "salut"]).isSome = true := by
  refine c10_collector_indexing_total [] [(1, 0, CellData.Str "hi")]
    [Outcome.ok "hi" "salut"] ?_
  intro k v hm
  have heq := List.mem_singleton.mp hm
  obtain ⟨rfl, rfl⟩ : k = "hi" ∧ v = "salut" := by
    cases heq
    exact ⟨rfl, rfl⟩
  decide

/-! ## Write-accounting lemmas for C2 -/

theorem writesLocs_append (a b : List (Nat × Nat × String)) :
    writesLocs (a ++ b) = writesLocs a ++ writesLocs b :=
  List.map_append _ a b

theorem writesLocs_okWrites_ok (untr : UMap) (k v : String) :
    writesLocs (okWrites untr (Outcome.ok k v)) = (untr.lookup k).getD [] := by
  simp only [okWrites, writesLocs, List.map_map]
  have hcomp : ((fun w : Nat × Nat × String => (w.1, w.2.1)) ∘
      fun p : Loc => (p.1, p.2, v)) = id := by
    funext p
    rfl
  rw [hcomp, List.map_id]

theorem writesLocs_flatten_okWrites (untr : UMap) (outs : List Outcome) :
    writesLocs ((outs.map (okWrites untr)).flatten) =
      ((okKeys outs).filterMap (fun k => untr.lookup k)).flatten := by
  induction outs with
  | nil => rfl
  | cons o rest ih =>
    rw [List.map_cons, List.flatten_cons, writesLocs_append, ih]
    cases o with
    | ok k v =>
      have hk : okKeys (Outcome.ok k v :: rest) = k :: okKeys rest := rfl
      rw [hk, List.filterMap_cons]
      cases hu : untr.lookup k with
      | none =>
        rw [writesLocs_okWrites_ok, hu]
        simp
      | some l =>
        rw [writesLocs_okWrites_ok, hu, List.flatten_cons]
        simp
    | err m =>
      have hk : okKeys (Outcome.err m :: rest) = okKeys rest := rfl
      rw [hk]
      simp [writesLocs, okWrites]

/-- C2 counterexample: the claim says every input CellLocation is written
exactly once. With a single string cell whose task fails, the run completes
with NO writes at all: the location (1, 0) is present in the input but never
written. -/
theorem c2_counterexample :
    totalWrites [] [(1, 0, CellData.Str "hello")] [Outcome.err "rate limited"] =
        some [] ∧
      strLocs [(1, 0, CellData.Str "hello")] = [(1, 0)] :=
  ⟨by decide, by decide⟩

/-- C2 (amended): every CellLocation is written AT MOST once, and every
written location is the location of a string cell of the input grid — no
location is ever written twice, but locations whose task fails (or never
receives an outcome) and non-string cells remain unwritten. Hypotheses: the
grid's string-cell locations are pairwise distinct and no key receives two
success outcomes. -/
theorem c2_writes_at_most_once (dict : Dict) (cells : List Cell)
    (outs : List Outcome) (ws : List (Nat × Nat × String))
    (hg : (strLocs cells).Nodup)
    (hk : (okKeys outs).Nodup)
    (hw : totalWrites dict cells outs = some ws) :
    writesLocs ws <+~ strLocs cells ∧ (writesLocs ws).Nodup := by
  simp only [totalWrites] at hw
  cases hc : collect (scan dict cells).untranslated initCollect outs with
  | none =>
    rw [hc] at hw
    simp at hw
  | some cst =>
    rw [hc] at hw
    simp only [Option.map_some'] at hw
    obtain rfl := Option.some.inj hw
    have hcw := collect_writes _ outs _ _ hc
    have hcw0 : cst.writes =
        (outs.map (okWrites (scan dict cells).untranslated)).flatten := by
      simpa [initCollect] using hcw
    have hsub : writesLocs ((scan dict cells).writes ++ cst.writes) <+~ strLocs cells := by
      rw [writesLocs_append, hcw0, writesLocs_flatten_okWrites]
      refine Subperm.trans ?_ (allLocs_scan dict cells).subperm
      exact (List.subperm_append_left _).mpr
        (selectLocs_subperm (scan dict cells).untranslated (okKeys outs) hk)
    refine ⟨hsub, ?_⟩
    rw [List.nodup_iff_count_le_one]
    intro a
    exact le_trans (hsub.count_le a) (List.nodup_iff_count_le_one.mp hg a)

/-- Witness for C2: a header cell, a deduplicated pair of task cells with a
successful outcome, and a skipped non-string cell. -/
theorem c2_witness :
    writesLocs [(0, 0, "Hdr"), (1, 0, "salut"), (2, 1, "salut")] <+~
      strLocs [(0, 0, CellData.Str "Hdr"), (1, 0, CellData.Str "hello"),
        (2, 1, CellData.Str "Hello"), (3, 3, CellData.Other)] ∧
    (writesLocs [(0, 0, "Hdr"), (1, 0, "salut"), (2, 1, "salut")]).Nodup :=
  c2_writes_at_most_once []
    [(0, 0, CellData.Str "Hdr"), (1, 0, CellData.Str "hello"),
      (2, 1, CellData.Str "Hello"), (3, 3, CellData.Other)]
    [Outcome.ok "hello" "salut"]
    [(0, 0, "Hdr"), (1, 0, "salut"), (2, 1, "salut")]
    (by decide) (by decide) (by decide)

end XlsxTranslator
